import Mathlib

/-!
Verification of the record-chunking and enrichment pipeline of the
`enrichment_scripts` repository.

The development shallowly embeds the Python sources:

* `src/spacy_enrichment/base_enricher.py` — reader (`get_record`),
  chunker (`get_record_chunk`), splitter (`split_records` / `unzip`);
* `src/spacy_enrichment/spacy_enrichment.py` — `enrich_documents` and the
  per-document annotation attachment;
* `src/document_enrichment.py` — the parallel dispatcher `run_enricher`.

Python dictionaries coming from `json.loads` are modelled as association
lists with pairwise-distinct keys (the key-uniqueness invariant of a dict
is carried as a hypothesis where a proof needs it).  The spaCy/textacy
engine is an external collaborator; following §4.4 and §9 of the design
notes it is modelled as an abstract, order-preserving map from the
submitted text to annotation values.
-/

/-- JSON values, as produced by Python's `json.loads`. -/
inductive Json where
  | null
  | bool (b : Bool)
  | num (n : Int)
  | str (s : String)
  | arr (elems : List Json)
  | obj (fields : List (String × Json))

/-- A record: one parsed JSON-lines object, modelled as an ordered
association list (Python dict preserving insertion order). -/
abbrev Record := List (String × Json)

/-- Python exceptions that the embedded pipeline can raise. -/
inductive PyErr where
  | fileNotFound
  | valueError
  | keyError (field : String)
  | typeError
  | unboundLocalError
deriving DecidableEq

/-- The outcome of `json.loads` on one input line: either a `ValueError`
(malformed JSON) or a parsed value. -/
inductive LoadResult where
  | malformed
  | val (j : Json)

/-- The keys of a record, in order. -/
def keysOf (r : Record) : List String :=
  r.map Prod.fst

/-- Python dict lookup `r[f]` (first entry with the key, `none` if absent). -/
def lookupField (f : String) : Record → Option Json
  | [] => none
  | (k, v) :: rest => if k = f then some v else lookupField f rest

/-- Membership test `f in r` for a record, as a boolean. -/
def hasField (f : String) (r : Record) : Bool :=
  (lookupField f r).isSome

/-- The field is present and holds a JSON string. -/
def strField (f : String) (r : Record) : Bool :=
  match lookupField f r with
  | some (Json.str _) => true
  | _ => false

/-- Model of `BaseEnricher.get_record` (`base_enricher.py` lines 15-39), body of the
generator loop: each line is fed to `json.loads`; a `ValueError` is caught
and the line skipped, a non-dict parse is skipped, a dict is yielded. -/
def get_record : List LoadResult → List Record
  | [] => []
  | LoadResult.malformed :: rest => get_record rest
  | LoadResult.val (Json.obj fields) :: rest => fields :: get_record rest
  | LoadResult.val _ :: rest => get_record rest

/-- Reader `get_record` including the `open(ipath)` step: a missing file raises
before any line is read; otherwise the lines are processed and no error
can surface. -/
def get_record_from_file (file : Option (List LoadResult)) :
    Except PyErr (List Record) :=
  match file with
  | none => Except.error PyErr.fileNotFound
  | some lines => Except.ok (get_record lines)

/-- Specification-side view of one line: the record it contributes, if it
parses to a top-level JSON object. -/
def objectOf : LoadResult → Option Record
  | LoadResult.val (Json.obj fields) => some fields
  | _ => none

/-- Fuel-indexed worker for the chunking loop of `get_record_chunk`: each
iteration takes one record (`first`) and then up to `size - 1` more
(`islice(iterator, size - 1)`).  The fuel only bounds the recursion; with
`fuel ≥ length` it never runs out. -/
def chunksOfFuel (n : Nat) : Nat → List Record → List (List Record)
  | _, [] => []
  | 0, _ :: _ => []
  | fuel + 1, x :: xs =>
      (x :: xs.take (n - 1)) :: chunksOfFuel n fuel (xs.drop (n - 1))

/-- The chunk decomposition produced by the loop in `get_record_chunk`. -/
def chunksOf (n : Nat) (l : List Record) : List (List Record) :=
  chunksOfFuel n l.length l

/-- Model of `BaseEnricher.get_record_chunk` (`base_enricher.py` lines 41-59) on the
record stream read from the file.  If the stream is empty the loop body
never runs and `size` is never inspected.  Otherwise the first iteration
evaluates `islice(iterator, size - 1)`, which raises `ValueError` when
`size - 1` is negative; for a positive `size` the stream is cut into
consecutive chunks of `size` records, the last one possibly shorter. -/
def get_record_chunk (records : List Record) (size : Int) :
    Except PyErr (List (List Record)) :=
  match records with
  | [] => Except.ok []
  | _ :: _ =>
      if size - 1 < 0 then Except.error PyErr.valueError
      else Except.ok (chunksOf size.toNat records)

/-- Python `record.pop(cfield)`: remove the entry with the given key and
return its value together with the shrunken record; `none` models the
`KeyError` raised when the key is absent. -/
def popField (f : String) : Record → Option (Json × Record)
  | [] => none
  | (k, v) :: rest =>
      if k = f then some (v, rest)
      else
        match popField f rest with
        | none => none
        | some (x, r2) => some (x, (k, v) :: r2)

/-- The list comprehension `[record.pop(cfield) for cfield in cfields]`:
the pops run left to right, mutating the record; the first absent key
raises `KeyError` with that key. -/
def popFields : Record → List String → Except PyErr (List Json × Record)
  | r, [] => Except.ok ([], r)
  | r, f :: fs =>
      match popField f r with
      | none => Except.error (PyErr.keyError f)
      | some (v, r2) =>
          match popFields r2 fs with
          | Except.error e => Except.error e
          | Except.ok (vs, r3) => Except.ok (v :: vs, r3)

/-- Conversion performed by the join: `'\n'.join(...)` demands that every element be a `str`; a non-string
element raises `TypeError`. -/
def asStrings : List Json → Option (List String)
  | [] => some []
  | Json.str s :: rest =>
      match asStrings rest with
      | none => none
      | some ss => some (s :: ss)
  | _ :: _ => none

/-- The per-record body of `BaseEnricher.split_records` (`base_enricher.py`
lines 61-72): pop every content field from the record (first missing key
raises `KeyError`), then newline-join the popped values (a non-string
value raises `TypeError` at the join); the mutated record is the metadata. -/
def splitRecord (r : Record) (cfields : List String) :
    Except PyErr (String × Record) :=
  match popFields r cfields with
  | Except.error e => Except.error e
  | Except.ok (vs, r2) =>
      match asStrings vs with
      | none => Except.error PyErr.typeError
      | some ss => Except.ok (String.intercalate "\n" ss, r2)

/-- Model of `BaseEnricher.split_records` over a whole chunk: the generator of
(text, metadata) pairs is consumed in order by `unzip` (`base_enricher.py`
lines 74-91, `tee` + `pluck`), producing the content stream and the
metadata stream; the first failing record aborts the traversal.  (For an
empty chunk the Python `unzip` returns an empty tuple; chunks produced by
`get_record_chunk` are never empty, and the list model returns two empty
streams.) -/
def split_records (records : List Record) (cfields : List String) :
    Except PyErr (List String × List Record) :=
  match records with
  | [] => Except.ok ([], [])
  | r :: rest =>
      match splitRecord r cfields with
      | Except.error e => Except.error e
      | Except.ok (t, m) =>
          match split_records rest cfields with
          | Except.error e => Except.error e
          | Except.ok (ts, ms) => Except.ok (t :: ts, m :: ms)

/-- The string value of a field (empty for absent or non-string fields,
which the hypotheses of the theorems below rule out). -/
def getStrD (f : String) (r : Record) : String :=
  match lookupField f r with
  | some (Json.str s) => s
  | _ => ""

/-- Specification-side text of a record: the newline-join of the values of
the content fields, in configured order (glossary: content-field values
are strings). -/
def joinFields (cfields : List String) (r : Record) : String :=
  String.intercalate "\n" (cfields.map fun f => getStrD f r)

/-- Remove every entry carrying the given key. -/
def removeField (f : String) : Record → Record
  | [] => []
  | (k, v) :: rest =>
      if k = f then removeField f rest else (k, v) :: removeField f rest

/-- Specification-side metadata of a record: the record with exactly the
content fields removed, every other field untouched. -/
def removeFields : List String → Record → Record
  | [], r => r
  | f :: fs, r => removeFields fs (removeField f r)

/-- The configuration object consumed by `SpacyEnrichment.enrich_documents`
(`args.fields`, `args.output`, `args.chunk_size` and the three annotation
flags `args.noun_chunk`, `args.svo`, `args.entity` — the code reads no
other flag). -/
structure Args where
  fields : List String
  output : String
  chunk_size : Int
  noun_chunk : Bool
  svo : Bool
  entity : Bool

/-- The opaque NLP engine (§4.4, §9 of the design notes): for each
submitted text it yields the values of the four extractors
`get_tokens`, `get_noun_chunks`, `get_svos`, `get_named_entities` of
`spacy_enrichment.py`.  The adapter contract — one document per text, in
submission order, metadata passed through unmodified — is realised below
by zipping the text stream with the metadata stream. -/
structure Engine where
  get_tokens : String → Json
  get_noun_chunks : String → Json
  get_svos : String → Json
  get_named_entities : String → Json

/-- Python dict assignment `d[key] = v`: replace the value in place when
the key exists, otherwise append the pair at the end. -/
def setField (key : String) (v : Json) : Record → Record
  | [] => [(key, v)]
  | (k, w) :: rest =>
      if k = key then (k, v) :: rest else (k, w) :: setField key v rest

/-- The per-document write-out loop body of `enrich_documents`
(`spacy_enrichment.py` lines 66-81): the tokens are always attached under
`metadata['spacy_enrichment'] = {'token': ...}`; the other three
extractors are attached under their keys only when the corresponding flag
is set. -/
def attach_enrichment (args : Args) (eng : Engine) (text : String)
    (metadata : Record) : Record :=
  let md1 := setField "spacy_enrichment"
    (Json.obj [("token", eng.get_tokens text)]) metadata
  let md2 := if args.noun_chunk
    then setField "noun_chunks" (eng.get_noun_chunks text) md1 else md1
  let md3 := if args.svo
    then setField "svos" (eng.get_svos text) md2 else md2
  if args.entity
    then setField "named_entities" (eng.get_named_entities text) md3 else md3

/-- Processing of one chunk inside `enrich_documents`: split the chunk into
the text and metadata streams, hand them to the adapter (which returns one
document per text in order, metadata passed through), and build one output
record per document. -/
def enrich_chunk (args : Args) (eng : Engine) (chunk : List Record) :
    Except PyErr (List Record) :=
  match split_records chunk args.fields with
  | Except.error e => Except.error e
  | Except.ok (texts, metas) =>
      Except.ok ((texts.zip metas).map fun tm =>
        attach_enrichment args eng tm.1 tm.2)

/-- The chunk loop of `enrich_documents`: chunks are processed in order,
each successful chunk appending its output records; the first failing
chunk aborts the loop with its exception, leaving the earlier chunks'
output written. -/
def process_chunks (args : Args) (eng : Engine) :
    List (List Record) → List Record × Option PyErr
  | [] => ([], none)
  | c :: cs =>
      match enrich_chunk args eng c with
      | Except.error e => ([], some e)
      | Except.ok outs =>
          match process_chunks args eng cs with
          | (rest, err) => (outs ++ rest, err)

/-- Model of `os.path.basename` for POSIX paths: the part after the last slash. -/
def basename (p : String) : String :=
  (p.splitOn "/").getLastD p

/-- Model of `os.path.join` for two POSIX path components. -/
def os_path_join (a b : String) : String :=
  if b.startsWith "/" then b
  else if a = "" then b
  else if a.endsWith "/" then a ++ b
  else a ++ "/" ++ b

/-- The observable outcome of `SpacyEnrichment.enrich_documents` on one
input file: the output path `<output_dir>/<basename(input_file)>.enrich`,
the records written (in append mode, one JSON object per line) before any
failure, and the exception aborting the job, if any. -/
structure EnrichResult where
  path : String
  written : List Record
  err : Option PyErr

/-- Model of `SpacyEnrichment.enrich_documents` (`spacy_enrichment.py` lines 45-81):
open the input file (raising if it cannot be opened), read the records,
cut them into chunks of `args.chunk_size`, and for each chunk split,
enrich, and append the output records to the output file. -/
def enrich_documents (eng : Engine) (ipath : String) (args : Args)
    (file : Option (List LoadResult)) : EnrichResult :=
  let path := os_path_join args.output (basename ipath ++ ".enrich")
  match file with
  | none => ⟨path, [], some PyErr.fileNotFound⟩
  | some lines =>
      match get_record_chunk (get_record lines) args.chunk_size with
      | Except.error e => ⟨path, [], some e⟩
      | Except.ok chunks =>
          match process_chunks args eng chunks with
          | (written, err) => ⟨path, written, err⟩

/-- Effect of `enrich_documents` acting on a file system (a map from path to file
content): the output file is opened in append mode, so its previous lines
are kept and the new records are appended; no other file is touched. -/
def enrich_documents_fs (eng : Engine) (ipath : String) (args : Args)
    (file : Option (List LoadResult)) (fs : String → List Record) :
    (String → List Record) × Option PyErr :=
  let res := enrich_documents eng ipath args file
  (fun p => if p = res.path then fs p ++ res.written else fs p, res.err)

/-- The observable outcome of `run_enricher`: what was printed, and the
exception propagating out of the call, if any. -/
structure DispatchResult where
  printed : List String
  err : Option PyErr
deriving DecidableEq

/-- The sequential branch of `run_enricher` (`cores == 1`): the per-file
jobs run one after another in file-list order in the calling process; the
first failing job aborts the loop with its exception. -/
def run_jobs_sequentially (job : String → Except PyErr Unit) :
    List String → Option PyErr
  | [] => none
  | p :: ps =>
      match job p with
      | Except.error e => some e
      | Except.ok _ => run_jobs_sequentially job ps

/-- Model of `run_enricher` (`document_enrichment.py` lines 49-62), with the
per-file call `SpacyEnrichment.enrich_documents(...)` abstracted as `job`.
With `cores == 1` the jobs run sequentially.  Otherwise every job is
submitted to a `multiprocessing` pool in file-list order, the handle `res`
being rebound at each submission; after `close`/`join` the code runs
`if not res.successful(): print(res.get())`.  With an empty file list
`res` was never bound, so `res.successful()` raises
`UnboundLocalError`.  When the last-submitted job failed,
`res.successful()` is false and `res.get()` re-raises that job's
exception, so `print` never runs. -/
def run_enricher (cores : Nat) (job : String → Except PyErr Unit)
    (ipaths : List String) : DispatchResult :=
  if cores = 1 then ⟨[], run_jobs_sequentially job ipaths⟩
  else
    match ipaths.getLast? with
    | none => ⟨[], some PyErr.unboundLocalError⟩
    | some last =>
        match job last with
        | Except.ok _ => ⟨[], none⟩
        | Except.error e => ⟨[], some e⟩

/-- Number of positional parameters `SpacyEnrichment.enrich_documents`
accepts once `cls` is bound: `(ipath, args)`. -/
def enrich_documents_param_count : Nat := 2

/-- Number of positional arguments `run_enricher` passes to
`SpacyEnrichment.enrich_documents` at both call sites:
`(cfields, ipath, opath, chunk_size, batch_size)`. -/
def run_enricher_arg_count : Nat := 5

/-- Python call semantics for a fixed-arity function: a call with the
wrong number of positional arguments raises `TypeError`. -/
def call_with_arity (params given : Nat) : Except PyErr Unit :=
  if given = params then Except.ok () else Except.error PyErr.typeError

/-- Every content field is present in the record with a string value
(the glossary defines a content field as a record key whose string value
is fed to the NLP engine). -/
def contentOK (cfields : List String) (r : Record) : Prop :=
  ∀ f ∈ cfields, strField f r = true

/-- Every content field is either absent from the record or holds a
string (so a failing record can only fail with a `KeyError`). -/
def strOrAbsent (cfields : List String) (r : Record) : Prop :=
  ∀ f ∈ cfields, hasField f r = false ∨ strField f r = true

instance (cfields : List String) (r : Record) :
    Decidable (contentOK cfields r) :=
  inferInstanceAs (Decidable (∀ f ∈ cfields, strField f r = true))

instance (cfields : List String) (r : Record) :
    Decidable (strOrAbsent cfields r) :=
  inferInstanceAs
    (Decidable (∀ f ∈ cfields, hasField f r = false ∨ strField f r = true))

/-- The output record built from one input record, when every stage
succeeds: the enrichment is attached to the record's metadata (the record
with the content fields removed), the text stream entry being the
newline-join of its content fields. -/
def outputRecord (args : Args) (eng : Engine) (r : Record) : Record :=
  attach_enrichment args eng (joinFields args.fields r)
    (removeFields args.fields r)

/-- A concrete engine used to evaluate the pipeline on sample inputs. -/
def nullEngine : Engine :=
  ⟨fun _ => Json.null, fun _ => Json.null, fun _ => Json.null,
    fun _ => Json.null⟩

/-- A sample record stream of three one-field records. -/
def sampleRecords : List Record :=
  [[("a", Json.null)], [("b", Json.null)], [("c", Json.null)]]

/-- A sample record with two string content fields and an id field. -/
def sampleSplitRecord : Record :=
  [("title", Json.str "A"), ("abstract", Json.str "B"), ("id", Json.num 1)]

/-- A sample configuration enriching the single content field `t` with
every annotation flag enabled. -/
def sampleArgsAllFlags : Args :=
  ⟨["t"], "out", 10, true, true, true⟩

/-- A sample configuration enriching the single content field `t` with
only the noun-chunk and named-entity flags enabled. -/
def sampleArgsMixedFlags : Args :=
  ⟨["t"], "out", 10, true, false, true⟩

/-- A sample input file with one well-formed record holding the content
field `t`. -/
def sampleLines : List LoadResult :=
  [LoadResult.val (Json.obj [("t", Json.str "x"), ("id", Json.num 1)])]

/-- A sample input file whose single record lacks the content field `t`. -/
def sampleLinesMissingField : List LoadResult :=
  [LoadResult.val (Json.obj [("id", Json.num 1)])]

/-- A sample per-file job map under which every job fails with
`ValueError`. -/
def failingJob : String → Except PyErr Unit :=
  fun _ => Except.error PyErr.valueError

/-! ### Lemmas about the chunker -/

theorem chunksOfFuel_congr (n : Nat) :
    ∀ (f1 f2 : Nat) (l : List Record), l.length ≤ f1 → l.length ≤ f2 →
      chunksOfFuel n f1 l = chunksOfFuel n f2 l := by
  intro f1
  induction f1 with
  | zero =>
      intro f2 l h1 _
      cases l with
      | nil => cases f2 <;> rfl
      | cons x xs => simp at h1
  | succ g ih =>
      intro f2 l h1 h2
      cases l with
      | nil => cases f2 <;> rfl
      | cons x xs =>
          cases f2 with
          | zero => simp at h2
          | succ f =>
              have hg : (xs.drop (n - 1)).length ≤ g := by
                simp only [List.length_drop]
                simp only [List.length_cons] at h1
                omega
              have hf : (xs.drop (n - 1)).length ≤ f := by
                simp only [List.length_drop]
                simp only [List.length_cons] at h2
                omega
              simp only [chunksOfFuel]
              rw [ih f _ hg hf]

theorem chunksOf_cons (n : Nat) (x : Record) (xs : List Record) :
    chunksOf n (x :: xs) =
      (x :: xs.take (n - 1)) :: chunksOf n (xs.drop (n - 1)) := by
  show chunksOfFuel n (x :: xs).length (x :: xs) = _
  simp only [List.length_cons, chunksOfFuel]
  rw [chunksOfFuel_congr n xs.length (xs.drop (n - 1)).length (xs.drop (n - 1))
    (by simp [List.length_drop]) le_rfl]
  rfl

theorem chunksOfFuel_flatten (n : Nat) :
    ∀ (fuel : Nat) (l : List Record), l.length ≤ fuel →
      (chunksOfFuel n fuel l).flatten = l := by
  intro fuel
  induction fuel with
  | zero =>
      intro l h
      cases l with
      | nil => rfl
      | cons x xs => simp at h
  | succ g ih =>
      intro l h
      cases l with
      | nil => rfl
      | cons x xs =>
          have hg : (xs.drop (n - 1)).length ≤ g := by
            simp only [List.length_drop]
            simp only [List.length_cons] at h
            omega
          simp only [chunksOfFuel, List.flatten_cons, ih _ hg]
          simp [List.take_append_drop]

theorem chunksOf_flatten (n : Nat) (l : List Record) :
    (chunksOf n l).flatten = l :=
  chunksOfFuel_flatten n l.length l le_rfl

theorem chunksOfFuel_length (n : Nat) (hn : 1 ≤ n) :
    ∀ (fuel : Nat) (l : List Record), l.length ≤ fuel →
      (chunksOfFuel n fuel l).length = (l.length + n - 1) / n := by
  intro fuel
  induction fuel with
  | zero =>
      intro l h
      cases l with
      | nil => simpa using (Nat.div_eq_of_lt (by omega)).symm
      | cons x xs => simp at h
  | succ g ih =>
      intro l h
      cases l with
      | nil => simpa using (Nat.div_eq_of_lt (by omega)).symm
      | cons x xs =>
          have hg : (xs.drop (n - 1)).length ≤ g := by
            simp only [List.length_drop]
            simp only [List.length_cons] at h
            omega
          simp only [chunksOfFuel, List.length_cons, ih _ hg, List.length_drop]
          have h1 : xs.length + 1 + n - 1 = xs.length + n := by omega
          rw [h1, Nat.add_div_right _ (by omega)]
          rcases Nat.le_total n (xs.length + 1) with hc | hc
          · have h2 : xs.length - (n - 1) + n - 1 = xs.length := by omega
            rw [h2]
          · have h2 : xs.length - (n - 1) = 0 := by omega
            rw [h2]
            have h3 : xs.length / n = 0 := Nat.div_eq_of_lt (by omega)
            have h4 : (0 + n - 1) / n = 0 := Nat.div_eq_of_lt (by omega)
            omega

theorem chunksOf_length (n : Nat) (hn : 1 ≤ n) (l : List Record) :
    (chunksOf n l).length = (l.length + n - 1) / n :=
  chunksOfFuel_length n hn l.length l le_rfl

theorem chunksOfFuel_ne_nil_of_ne_nil (n : Nat) (fuel : Nat) (l : List Record)
    (hl : l ≠ []) (hf : l.length ≤ fuel) : chunksOfFuel n fuel l ≠ [] := by
  cases l with
  | nil => exact absurd rfl hl
  | cons x xs =>
      cases fuel with
      | zero => simp at hf
      | succ g => simp [chunksOfFuel]

theorem chunksOfFuel_dropLast (n : Nat) (hn : 1 ≤ n) :
    ∀ (fuel : Nat) (l : List Record), l.length ≤ fuel →
      ∀ c ∈ (chunksOfFuel n fuel l).dropLast, c.length = n := by
  intro fuel
  induction fuel with
  | zero =>
      intro l h c hc
      cases l with
      | nil => simp [chunksOfFuel] at hc
      | cons x xs => simp at h
  | succ g ih =>
      intro l h c hc
      cases l with
      | nil => simp [chunksOfFuel] at hc
      | cons x xs =>
          have hg : (xs.drop (n - 1)).length ≤ g := by
            simp only [List.length_drop]
            simp only [List.length_cons] at h
            omega
          simp only [chunksOfFuel] at hc
          cases hrest : chunksOfFuel n g (xs.drop (n - 1)) with
          | nil => rw [hrest] at hc; simp at hc
          | cons c2 cs2 =>
              rw [hrest] at hc
              have hdrop : xs.drop (n - 1) ≠ [] := by
                intro hnil
                rw [hnil] at hrest
                cases g <;> simp [chunksOfFuel] at hrest
              have hlen : n - 1 < xs.length := by
                by_contra hle
                exact hdrop (List.drop_eq_nil_of_le (by omega))
              rw [List.dropLast_cons₂] at hc
              rcases List.mem_cons.mp hc with hceq | hcmem
              · rw [hceq]
                simp only [List.length_cons, List.length_take]
                omega
              · exact ih _ hg c (by rw [hrest]; exact hcmem)

theorem chunksOf_dropLast (n : Nat) (hn : 1 ≤ n) (l : List Record) :
    ∀ c ∈ (chunksOf n l).dropLast, c.length = n :=
  chunksOfFuel_dropLast n hn l.length l le_rfl

theorem chunksOfFuel_getLast (n : Nat) (hn : 1 ≤ n) :
    ∀ (fuel : Nat) (l : List Record), l.length ≤ fuel →
      ∀ c, (chunksOfFuel n fuel l).getLast? = some c →
        c.length = if l.length % n = 0 then n else l.length % n := by
  intro fuel
  induction fuel with
  | zero =>
      intro l h c hc
      cases l with
      | nil => simp [chunksOfFuel] at hc
      | cons x xs => simp at h
  | succ g ih =>
      intro l h c hc
      cases l with
      | nil => simp [chunksOfFuel] at hc
      | cons x xs =>
          have hg : (xs.drop (n - 1)).length ≤ g := by
            simp only [List.length_drop]
            simp only [List.length_cons] at h
            omega
          simp only [chunksOfFuel] at hc
          cases hrest : chunksOfFuel n g (xs.drop (n - 1)) with
          | nil =>
              rw [hrest] at hc
              simp only [List.getLast?_singleton, Option.some_inj] at hc
              have hdrop : xs.drop (n - 1) = [] := by
                by_contra hne
                exact chunksOfFuel_ne_nil_of_ne_nil n g _ hne hg hrest
              have hxs : xs.length ≤ n - 1 :=
                le_of_not_lt fun hlt =>
                  (by simp [List.length_drop] at hdrop; omega : False)
              rw [← hc]
              simp only [List.length_cons, List.length_take]
              have hmin : min (n - 1) xs.length = xs.length := by omega
              rw [hmin]
              rcases Nat.lt_or_ge (xs.length + 1) n with hlt | hge
              · rw [if_neg]
                · exact (Nat.mod_eq_of_lt hlt).symm
                · rw [Nat.mod_eq_of_lt hlt]; omega
              · have heq : xs.length + 1 = n := by omega
                rw [heq, if_pos (Nat.mod_self n)]
          | cons c2 cs2 =>
              rw [hrest, List.getLast?_cons_cons] at hc
              rw [← hrest] at hc
              have := ih _ hg c hc
              have hdrop : xs.drop (n - 1) ≠ [] := by
                intro hnil
                rw [hnil] at hrest
                cases g <;> simp [chunksOfFuel] at hrest
              have hlen : n - 1 < xs.length := by
                by_contra hle
                exact hdrop (List.drop_eq_nil_of_le (by omega))
              simp only [List.length_drop] at this
              have hsum : xs.length + 1 = (xs.length - (n - 1)) + n := by omega
              simp only [List.length_cons, hsum, Nat.add_mod_right]
              exact this

theorem chunksOf_getLast (n : Nat) (hn : 1 ≤ n) (l : List Record) :
    ∀ c, (chunksOf n l).getLast? = some c →
      c.length = if l.length % n = 0 then n else l.length % n :=
  chunksOfFuel_getLast n hn l.length l le_rfl

/-! ### Lemmas about the splitter -/

theorem hasField_false_iff (f : String) (r : Record) :
    hasField f r = false ↔ lookupField f r = none := by
  unfold hasField
  cases lookupField f r <;> simp

theorem hasField_of_strField (f : String) (r : Record)
    (h : strField f r = true) : hasField f r = true := by
  unfold strField at h
  unfold hasField
  cases hv : lookupField f r with
  | none => rw [hv] at h; simp at h
  | some v => simp

theorem popField_eq_none_iff (f : String) (r : Record) :
    popField f r = none ↔ lookupField f r = none := by
  induction r with
  | nil => simp [popField, lookupField]
  | cons kv rest ih =>
      obtain ⟨k, v⟩ := kv
      by_cases hk : k = f
      · simp [popField, lookupField, hk]
      · simp only [popField, lookupField, if_neg hk]
        cases hp : popField f rest with
        | none => simp [hp, ← ih]
        | some p => simp [hp]; rw [← ih]; simp [hp]

theorem removeField_of_not_mem (f : String) (r : Record)
    (h : f ∉ keysOf r) : removeField f r = r := by
  induction r with
  | nil => rfl
  | cons kv rest ih =>
      obtain ⟨k, v⟩ := kv
      simp only [keysOf, List.map_cons, List.mem_cons] at h
      push_neg at h
      have hk : ¬ k = f := fun hkf => h.1 (Eq.symm hkf)
      simp only [removeField, if_neg hk]
      rw [ih (by simpa [keysOf] using h.2)]

theorem removeField_sublist (f : String) (r : Record) :
    (removeField f r).Sublist r := by
  induction r with
  | nil => exact List.Sublist.refl []
  | cons kv rest ih =>
      obtain ⟨k, v⟩ := kv
      by_cases hk : k = f
      · simp only [removeField, if_pos hk]
        exact ih.trans (List.sublist_cons_self _ _)
      · simp only [removeField, if_neg hk]
        exact ih.cons₂ _

theorem keysOf_removeField_nodup (f : String) (r : Record)
    (h : (keysOf r).Nodup) : (keysOf (removeField f r)).Nodup :=
  h.sublist ((removeField_sublist f r).map Prod.fst)

theorem lookupField_removeField_ne (f g : String) (r : Record)
    (hgf : g ≠ f) : lookupField g (removeField f r) = lookupField g r := by
  induction r with
  | nil => rfl
  | cons kv rest ih =>
      obtain ⟨k, v⟩ := kv
      by_cases hk : k = f
      · have hkg : ¬ k = g := fun hkg => hgf (by rw [← hkg]; exact hk)
        simp only [removeField, if_pos hk, ih, lookupField, if_neg hkg]
      · simp only [removeField, if_neg hk, lookupField]
        by_cases hkg : k = g
        · simp [hkg]
        · simp [hkg, ih]

theorem popField_of_nodup (f : String) (r : Record)
    (hr : (keysOf r).Nodup) (v : Json) (hv : lookupField f r = some v) :
    popField f r = some (v, removeField f r) := by
  induction r with
  | nil => simp [lookupField] at hv
  | cons kv rest ih =>
      obtain ⟨k, w⟩ := kv
      simp only [keysOf, List.map_cons, List.nodup_cons] at hr
      by_cases hk : k = f
      · simp only [lookupField, if_pos hk] at hv
        obtain rfl : w = v := Option.some_inj.mp hv
        simp only [popField, if_pos hk, removeField, if_pos hk]
        rw [removeField_of_not_mem f rest (hk ▸ hr.1)]
      · simp only [lookupField, if_neg hk] at hv
        simp only [popField, if_neg hk, removeField, if_neg hk]
        rw [ih hr.2 hv]

theorem lookupField_popField_ne (f g : String) (hgf : g ≠ f) :
    ∀ (r r2 : Record) (v : Json), popField f r = some (v, r2) →
      lookupField g r2 = lookupField g r := by
  intro r
  induction r with
  | nil => intro r2 v hpop; simp [popField] at hpop
  | cons kv rest ih =>
      obtain ⟨k, w⟩ := kv
      intro r2 v hpop
      by_cases hk : k = f
      · simp only [popField, if_pos hk, Option.some_inj, Prod.mk.injEq] at hpop
        obtain ⟨hv, hr2⟩ := hpop
        subst hr2
        have hkg : ¬ k = g := fun hkg => hgf (by rw [← hkg]; exact hk)
        simp only [lookupField, if_neg hkg]
      · simp only [popField, if_neg hk] at hpop
        cases hp : popField f rest with
        | none => rw [hp] at hpop; simp at hpop
        | some p =>
            obtain ⟨x, r3⟩ := p
            rw [hp] at hpop
            simp only [Option.some_inj, Prod.mk.injEq] at hpop
            obtain ⟨hv, hr2⟩ := hpop
            subst hr2
            simp only [lookupField]
            by_cases hkg : k = g
            · simp [hkg]
            · simp only [if_neg hkg]
              exact ih r3 x hp

theorem popFields_ok (cfields : List String) (hc : cfields.Nodup) :
    ∀ r : Record, (keysOf r).Nodup →
      (∀ f ∈ cfields, hasField f r = true) →
      popFields r cfields =
        Except.ok (cfields.map (fun f => (lookupField f r).getD Json.null),
          removeFields cfields r) := by
  induction cfields with
  | nil => intro r _ _; rfl
  | cons f fs ih =>
      intro r hr hpres
      have hf : hasField f r = true := hpres f (List.mem_cons_self f fs)
      obtain ⟨v, hv⟩ : ∃ v, lookupField f r = some v := by
        unfold hasField at hf
        cases hlk : lookupField f r with
        | none => rw [hlk] at hf; simp at hf
        | some v => exact ⟨v, rfl⟩
      simp only [List.nodup_cons] at hc
      have hpop := popField_of_nodup f r hr v hv
      have hrest := ih hc.2 (removeField f r)
        (keysOf_removeField_nodup f r hr)
        (fun g hg => by
          have hgf : g ≠ f := fun hgl => hc.1 (hgl ▸ hg)
          unfold hasField
          rw [lookupField_removeField_ne f g r hgf]
          exact hpres g (List.mem_cons_of_mem f hg))
      have hmap : List.map (fun g => (lookupField g (removeField f r)).getD
            Json.null) fs =
          List.map (fun g => (lookupField g r).getD Json.null) fs :=
        List.map_congr_left (fun g hg => by
          have hgf : g ≠ f := fun hgl => hc.1 (hgl ▸ hg)
          rw [lookupField_removeField_ne f g r hgf])
      simp only [popFields, hpop, hrest, List.map_cons, hv, Option.getD_some,
        removeFields, hmap]

theorem popFields_keyError (cfields : List String) (hc : cfields.Nodup) :
    ∀ r : Record, (∃ f ∈ cfields, hasField f r = false) →
      ∃ f0 ∈ cfields, hasField f0 r = false ∧
        popFields r cfields = Except.error (PyErr.keyError f0) := by
  induction cfields with
  | nil => intro r hbad; simp at hbad
  | cons f fs ih =>
      intro r hbad
      simp only [List.nodup_cons] at hc
      cases hlk : lookupField f r with
      | none =>
          refine ⟨f, List.mem_cons_self f fs, ?_, ?_⟩
          · rw [hasField_false_iff]; exact hlk
          · have hpop : popField f r = none := (popField_eq_none_iff f r).mpr hlk
            simp [popFields, hpop]
      | some v =>
          obtain ⟨g, hg, hgfalse⟩ := hbad
          have hgf : g ≠ f := by
            intro hgl
            subst hgl
            rw [hasField_false_iff] at hgfalse
            rw [hgfalse] at hlk
            exact Option.noConfusion hlk
          have hgfs : g ∈ fs := by
            rcases List.mem_cons.mp hg with hgl | hgfs
            · exact absurd hgl hgf
            · exact hgfs
          obtain ⟨v2, r2, hpop⟩ : ∃ v2 r2, popField f r = some (v2, r2) := by
            cases hp : popField f r with
            | none =>
                rw [popField_eq_none_iff] at hp
                rw [hp] at hlk
                exact Option.noConfusion hlk
            | some p =>
                obtain ⟨v2, r2⟩ := p
                exact ⟨v2, r2, rfl⟩
          have hg2 : hasField g r2 = false := by
            unfold hasField
            rw [lookupField_popField_ne f g hgf r r2 v2 hpop]
            rw [hasField_false_iff] at hgfalse
            simp [hgfalse]
          obtain ⟨f0, hf0, hf0false, hf0err⟩ := ih hc.2 r2 ⟨g, hgfs, hg2⟩
          refine ⟨f0, List.mem_cons_of_mem f hf0, ?_, ?_⟩
          · have hf0f : f0 ≠ f := fun hl => hc.1 (hl ▸ hf0)
            unfold hasField
            rw [← lookupField_popField_ne f f0 hf0f r r2 v2 hpop]
            exact hf0false
          · simp [popFields, hpop, hf0err]

theorem asStrings_of_strFields (cfields : List String) (r : Record)
    (hok : ∀ f ∈ cfields, strField f r = true) :
    asStrings (cfields.map (fun f => (lookupField f r).getD Json.null)) =
      some (cfields.map (fun f => getStrD f r)) := by
  induction cfields with
  | nil => rfl
  | cons f fs ih =>
      have hf := hok f (List.mem_cons_self f fs)
      unfold strField at hf
      simp only [List.map_cons]
      cases hlk : lookupField f r with
      | none => rw [hlk] at hf; simp at hf
      | some v =>
          rw [hlk] at hf
          cases v with
          | str s =>
              simp only [Option.getD_some, asStrings,
                ih (fun g hg => hok g (List.mem_cons_of_mem f hg))]
              simp [getStrD, hlk]
          | null => simp at hf
          | bool b => simp at hf
          | num n => simp at hf
          | arr elems => simp at hf
          | obj fields => simp at hf

theorem splitRecord_ok (cfields : List String) (r : Record)
    (hc : cfields.Nodup) (hr : (keysOf r).Nodup)
    (hok : contentOK cfields r) :
    splitRecord r cfields =
      Except.ok (joinFields cfields r, removeFields cfields r) := by
  have hpres : ∀ f ∈ cfields, hasField f r = true :=
    fun f hf => hasField_of_strField f r (hok f hf)
  simp [splitRecord, popFields_ok cfields hc r hr hpres,
    asStrings_of_strFields cfields r hok, joinFields]

theorem splitRecord_keyError (cfields : List String) (r : Record)
    (hc : cfields.Nodup) (hbad : ∃ f ∈ cfields, hasField f r = false) :
    ∃ f0 ∈ cfields, hasField f0 r = false ∧
      splitRecord r cfields = Except.error (PyErr.keyError f0) := by
  obtain ⟨f0, hf0, hfalse, herr⟩ := popFields_keyError cfields hc r hbad
  exact ⟨f0, hf0, hfalse, by simp [splitRecord, herr]⟩

theorem split_records_ok (cfields : List String) (hc : cfields.Nodup) :
    ∀ records : List Record,
      (∀ r ∈ records, (keysOf r).Nodup ∧ contentOK cfields r) →
      split_records records cfields =
        Except.ok (records.map (joinFields cfields),
          records.map (removeFields cfields)) := by
  intro records
  induction records with
  | nil => intro _; rfl
  | cons r rest ih =>
      intro h
      have hr := h r (List.mem_cons_self r rest)
      simp only [split_records,
        splitRecord_ok cfields r hc hr.1 hr.2,
        ih (fun x hx => h x (List.mem_cons_of_mem r hx)), List.map_cons]

theorem split_records_keyError (cfields : List String) (hc : cfields.Nodup) :
    ∀ records : List Record,
      (∀ r ∈ records, (keysOf r).Nodup ∧ strOrAbsent cfields r) →
      (∃ r ∈ records, ∃ f ∈ cfields, hasField f r = false) →
      ∃ f, split_records records cfields = Except.error (PyErr.keyError f) := by
  intro records
  induction records with
  | nil => intro _ hbad; simp at hbad
  | cons r rest ih =>
      intro h hbad
      have hr := h r (List.mem_cons_self r rest)
      by_cases hrbad : ∃ f ∈ cfields, hasField f r = false
      · obtain ⟨f0, _, _, herr⟩ := splitRecord_keyError cfields r hc hrbad
        exact ⟨f0, by simp [split_records, herr]⟩
      · push_neg at hrbad
        have hok : contentOK cfields r := by
          intro f hf
          rcases hr.2 f hf with habs | hstr
          · exact absurd habs (hrbad f hf)
          · exact hstr
        obtain ⟨rbad, hrbadmem, hfbad⟩ := hbad
        have hrbadrest : rbad ∈ rest := by
          rcases List.mem_cons.mp hrbadmem with heq | hmem
          · subst heq
            obtain ⟨f, hf, hfalse⟩ := hfbad
            exact absurd hfalse (by simp [hrbad f hf])
          · exact hmem
        obtain ⟨f, herr⟩ := ih (fun x hx => h x (List.mem_cons_of_mem r hx))
          ⟨rbad, hrbadrest, hfbad⟩
        refine ⟨f, ?_⟩
        simp [split_records, splitRecord_ok cfields r hc hr.1 hok, herr]

/-! ### Lemmas about the enricher -/

theorem enrich_chunk_ok (args : Args) (eng : Engine) (chunk : List Record)
    (hc : args.fields.Nodup)
    (hrec : ∀ r ∈ chunk, (keysOf r).Nodup ∧ contentOK args.fields r) :
    enrich_chunk args eng chunk =
      Except.ok (chunk.map (outputRecord args eng)) := by
  simp only [enrich_chunk, split_records_ok args.fields hc chunk hrec]
  rw [List.zip_map']
  simp [List.map_map, outputRecord, Function.comp]

theorem process_chunks_ok (args : Args) (eng : Engine) :
    ∀ chunks : List (List Record),
      (∀ c ∈ chunks, ∀ r ∈ c, (keysOf r).Nodup ∧ contentOK args.fields r) →
      args.fields.Nodup →
      process_chunks args eng chunks =
        (chunks.flatten.map (outputRecord args eng), none) := by
  intro chunks
  induction chunks with
  | nil => intro _ _; rfl
  | cons c cs ih =>
      intro h hc
      simp only [process_chunks,
        enrich_chunk_ok args eng c hc (h c (List.mem_cons_self c cs)),
        ih (fun x hx => h x (List.mem_cons_of_mem c hx)) hc]
      simp [List.flatten_cons]

theorem process_chunks_keyError (args : Args) (eng : Engine)
    (hc : args.fields.Nodup) :
    ∀ chunks : List (List Record),
      (∀ c ∈ chunks, ∀ r ∈ c,
        (keysOf r).Nodup ∧ strOrAbsent args.fields r) →
      (∃ c ∈ chunks, ∃ r ∈ c, ∃ f ∈ args.fields, hasField f r = false) →
      ∃ f, (process_chunks args eng chunks).2 = some (PyErr.keyError f) := by
  intro chunks
  induction chunks with
  | nil => intro _ hbad; simp at hbad
  | cons c cs ih =>
      intro h hbad
      by_cases hcbad : ∃ r ∈ c, ∃ f ∈ args.fields, hasField f r = false
      · obtain ⟨f, herr⟩ := split_records_keyError args.fields hc c
          (h c (List.mem_cons_self c cs)) hcbad
        refine ⟨f, ?_⟩
        simp [process_chunks, enrich_chunk, herr]
      · have hok : ∀ r ∈ c, (keysOf r).Nodup ∧ contentOK args.fields r := by
          intro r hrmem
          have hr := h c (List.mem_cons_self c cs) r hrmem
          refine ⟨hr.1, fun f hf => ?_⟩
          rcases hr.2 f hf with habs | hstr
          · exact absurd ⟨r, hrmem, f, hf, habs⟩ hcbad
          · exact hstr
        obtain ⟨cbad, hcmem, hcrest⟩ := hbad
        have hcbadcs : cbad ∈ cs := by
          rcases List.mem_cons.mp hcmem with heq | hmem
          · subst heq; exact absurd hcrest hcbad
          · exact hmem
        obtain ⟨f, herr⟩ := ih (fun x hx => h x (List.mem_cons_of_mem c hx))
          ⟨cbad, hcbadcs, hcrest⟩
        refine ⟨f, ?_⟩
        simp only [process_chunks, enrich_chunk_ok args eng c hc hok]
        cases hpc : process_chunks args eng cs with
        | mk w e =>
            rw [hpc] at herr
            simpa using herr

theorem get_record_chunk_pos (records : List Record) (size : Int)
    (h : 1 ≤ size) :
    get_record_chunk records size =
      Except.ok (chunksOf size.toNat records) := by
  cases records with
  | nil => rfl
  | cons r rest =>
      have hpos : ¬ size - 1 < 0 := by omega
      simp [get_record_chunk, if_neg hpos]
      omega

theorem enrich_documents_ok (eng : Engine) (ipath : String) (args : Args)
    (lines : List LoadResult) (hc : args.fields.Nodup)
    (hcs : 1 ≤ args.chunk_size)
    (hrec : ∀ r ∈ get_record lines,
      (keysOf r).Nodup ∧ contentOK args.fields r) :
    enrich_documents eng ipath args (some lines) =
      ⟨os_path_join args.output (basename ipath ++ ".enrich"),
        (get_record lines).map (outputRecord args eng), none⟩ := by
  have hmem : ∀ c ∈ chunksOf args.chunk_size.toNat (get_record lines),
      ∀ x ∈ c, (keysOf x).Nodup ∧ contentOK args.fields x := by
    intro c hcmem x hx
    refine hrec x ?_
    rw [← chunksOf_flatten args.chunk_size.toNat (get_record lines)]
    exact List.mem_flatten.mpr ⟨c, hcmem, hx⟩
  simp only [enrich_documents, get_record_chunk_pos _ _ hcs,
    process_chunks_ok args eng _ hmem hc, chunksOf_flatten]

theorem enrich_documents_keyError (eng : Engine) (ipath : String)
    (args : Args) (lines : List LoadResult) (hc : args.fields.Nodup)
    (hcs : 1 ≤ args.chunk_size)
    (hrec : ∀ r ∈ get_record lines,
      (keysOf r).Nodup ∧ strOrAbsent args.fields r)
    (hbad : ∃ r ∈ get_record lines, ∃ f ∈ args.fields,
      hasField f r = false) :
    ∃ f, (enrich_documents eng ipath args (some lines)).err =
      some (PyErr.keyError f) := by
  have hmem : ∀ c ∈ chunksOf args.chunk_size.toNat (get_record lines),
      ∀ x ∈ c, (keysOf x).Nodup ∧ strOrAbsent args.fields x := by
    intro c hcmem x hx
    refine hrec x ?_
    rw [← chunksOf_flatten args.chunk_size.toNat (get_record lines)]
    exact List.mem_flatten.mpr ⟨c, hcmem, hx⟩
  obtain ⟨rbad, hrmem, hfbad⟩ := hbad
  have hrmem2 : ∃ c ∈ chunksOf args.chunk_size.toNat (get_record lines),
      rbad ∈ c := by
    refine List.mem_flatten.mp ?_
    rw [chunksOf_flatten]
    exact hrmem
  obtain ⟨cbad, hcmem, hrinc⟩ := hrmem2
  obtain ⟨f, herr⟩ := process_chunks_keyError args eng hc _ hmem
    ⟨cbad, hcmem, rbad, hrinc, hfbad⟩
  refine ⟨f, ?_⟩
  simp only [enrich_documents, get_record_chunk_pos _ _ hcs]
  simpa using herr

/-! ### Lemmas about dict assignment and the attached annotations -/

theorem mem_keysOf_setField (k key : String) (v : Json) (r : Record) :
    k ∈ keysOf (setField key v r) ↔ k = key ∨ k ∈ keysOf r := by
  induction r with
  | nil => simp [setField, keysOf]
  | cons kv rest ih =>
      obtain ⟨k0, w⟩ := kv
      by_cases hk : k0 = key
      · subst hk
        simp [setField, keysOf]
      · simp only [setField, if_neg hk, keysOf, List.map_cons,
          List.mem_cons] at ih ⊢
        rw [ih]
        tauto

theorem lookupField_setField_self (key : String) (v : Json) (r : Record) :
    lookupField key (setField key v r) = some v := by
  induction r with
  | nil => simp [setField, lookupField]
  | cons kv rest ih =>
      obtain ⟨k0, w⟩ := kv
      by_cases hk : k0 = key
      · simp [setField, if_pos hk, lookupField, hk]
      · simp [setField, if_neg hk, lookupField, if_neg hk, ih]

theorem lookupField_setField_ne (k key : String) (v : Json) (r : Record)
    (hk : k ≠ key) : lookupField k (setField key v r) = lookupField k r := by
  have hkey : ¬ key = k := fun h => hk (Eq.symm h)
  induction r with
  | nil => simp [setField, lookupField, if_neg hkey]
  | cons kv rest ih =>
      obtain ⟨k0, w⟩ := kv
      by_cases hk0 : k0 = key
      · subst hk0
        simp only [setField, lookupField]
        rw [if_neg hkey, if_neg hkey]
      · simp only [setField, if_neg hk0, lookupField]
        by_cases hkk : k0 = k
        · simp [hkk]
        · simp [hkk, ih]

theorem mem_keysOf_attach (args : Args) (eng : Engine) (t : String)
    (m : Record) (k : String) :
    k ∈ keysOf (attach_enrichment args eng t m) ↔
      k = "spacy_enrichment" ∨
      (args.noun_chunk = true ∧ k = "noun_chunks") ∨
      (args.svo = true ∧ k = "svos") ∨
      (args.entity = true ∧ k = "named_entities") ∨
      k ∈ keysOf m := by
  unfold attach_enrichment
  cases hnc : args.noun_chunk <;> cases hsv : args.svo <;>
    cases hen : args.entity <;>
    simp [mem_keysOf_setField] <;> tauto

theorem lookupField_attach_spacy (args : Args) (eng : Engine) (t : String)
    (m : Record) :
    lookupField "spacy_enrichment" (attach_enrichment args eng t m) =
      some (Json.obj [("token", eng.get_tokens t)]) := by
  unfold attach_enrichment
  have h1 : ("spacy_enrichment" : String) ≠ "noun_chunks" := by decide
  have h2 : ("spacy_enrichment" : String) ≠ "svos" := by decide
  have h3 : ("spacy_enrichment" : String) ≠ "named_entities" := by decide
  cases hnc : args.noun_chunk <;> cases hsv : args.svo <;>
    cases hen : args.entity <;>
    simp [lookupField_setField_ne _ _ _ _ h1,
      lookupField_setField_ne _ _ _ _ h2,
      lookupField_setField_ne _ _ _ _ h3, lookupField_setField_self]

theorem keysOf_removeFields_subset (cfields : List String) :
    ∀ r : Record, ∀ k, k ∈ keysOf (removeFields cfields r) → k ∈ keysOf r := by
  induction cfields with
  | nil => intro r k h; exact h
  | cons f fs ih =>
      intro r k h
      have h2 := ih (removeField f r) k h
      exact ((removeField_sublist f r).map Prod.fst).mem h2

/-! ### Lemmas about the reader -/

theorem get_record_eq_filterMap (lines : List LoadResult) :
    get_record lines = lines.filterMap objectOf := by
  induction lines with
  | nil => rfl
  | cons line rest ih =>
      cases line with
      | malformed => simp [get_record, List.filterMap_cons, objectOf, ih]
      | val j =>
          cases j <;> simp [get_record, List.filterMap_cons, objectOf, ih]

theorem get_record_length (lines : List LoadResult) :
    (get_record lines).length = lines.countP (fun l => (objectOf l).isSome) := by
  induction lines with
  | nil => rfl
  | cons line rest ih =>
      cases line with
      | malformed => simp [get_record, List.countP_cons, objectOf, ih]
      | val j =>
          cases j <;>
            simp [get_record, List.countP_cons, objectOf, ih]

theorem hasField_true_iff_mem (f : String) (r : Record) :
    hasField f r = true ↔ f ∈ keysOf r := by
  induction r with
  | nil => simp [hasField, lookupField, keysOf]
  | cons kv rest ih =>
      obtain ⟨k, v⟩ := kv
      simp only [hasField, lookupField, keysOf, List.map_cons,
        List.mem_cons] at ih ⊢
      by_cases hk : k = f
      · simp [hk]
      · rw [if_neg hk, ih]
        have hfk : ¬ f = k := fun h => hk (Eq.symm h)
        simp [hfk]

theorem outputRecord_keys (args : Args) (eng : Engine) (r : Record)
    (h1 : "noun_chunks" ∉ keysOf r) (h2 : "svos" ∉ keysOf r)
    (h3 : "named_entities" ∉ keysOf r) (h4 : "sents" ∉ keysOf r) :
    (∃ t, lookupField "spacy_enrichment" (outputRecord args eng r) =
      some (Json.obj [("token", eng.get_tokens t)])) ∧
    ("noun_chunks" ∈ keysOf (outputRecord args eng r) ↔
      args.noun_chunk = true) ∧
    ("svos" ∈ keysOf (outputRecord args eng r) ↔ args.svo = true) ∧
    ("named_entities" ∈ keysOf (outputRecord args eng r) ↔
      args.entity = true) ∧
    "sents" ∉ keysOf (outputRecord args eng r) := by
  have hm1 : "noun_chunks" ∉ keysOf (removeFields args.fields r) :=
    fun hmem => h1 (keysOf_removeFields_subset args.fields r _ hmem)
  have hm2 : "svos" ∉ keysOf (removeFields args.fields r) :=
    fun hmem => h2 (keysOf_removeFields_subset args.fields r _ hmem)
  have hm3 : "named_entities" ∉ keysOf (removeFields args.fields r) :=
    fun hmem => h3 (keysOf_removeFields_subset args.fields r _ hmem)
  have hm4 : "sents" ∉ keysOf (removeFields args.fields r) :=
    fun hmem => h4 (keysOf_removeFields_subset args.fields r _ hmem)
  refine ⟨⟨joinFields args.fields r,
    lookupField_attach_spacy args eng (joinFields args.fields r)
      (removeFields args.fields r)⟩, ?_, ?_, ?_, ?_⟩
  · simp [outputRecord, mem_keysOf_attach, hm1]
  · simp [outputRecord, mem_keysOf_attach, hm2]
  · simp [outputRecord, mem_keysOf_attach, hm3]
  · simp [outputRecord, mem_keysOf_attach, hm4]

/-! ### Claims -/

/-- Claim C1.  For every chunk, with the Enrichment Adapter returning one
document per submitted text in submission order and its metadata passed
through unmodified (the order-preserving adapter contract realised in
`enrich_chunk` by zipping the text stream with the metadata stream), the
output record at position `i` of the chunk is built from exactly the
metadata derived from the chunk's record at position `i` — that record
with its content fields removed — with no cross-record mixing between the
text stream and the metadata stream.  Hypotheses: the configured content
fields are pairwise distinct, and each record is a dict (unique keys)
whose content fields hold strings, as the glossary defines content
fields. -/
theorem c1_no_cross_record_mixing (args : Args) (eng : Engine)
    (chunk : List Record) (hc : args.fields.Nodup)
    (hrec : ∀ r ∈ chunk, (keysOf r).Nodup ∧ contentOK args.fields r) :
    enrich_chunk args eng chunk =
      Except.ok (chunk.map (fun r => attach_enrichment args eng
        (joinFields args.fields r) (removeFields args.fields r))) :=
  enrich_chunk_ok args eng chunk hc hrec

/-- Witness for C1 at a concrete two-record chunk. -/
theorem c1_no_cross_record_mixing_witness :
    ((sampleArgsAllFlags.fields.Nodup) ∧
      (∀ r ∈ [[("t", Json.str "x"), ("id", Json.num 1)],
          [("t", Json.str "y"), ("id", Json.num 2)]],
        (keysOf r).Nodup ∧ contentOK sampleArgsAllFlags.fields r)) ∧
    enrich_chunk sampleArgsAllFlags nullEngine
        [[("t", Json.str "x"), ("id", Json.num 1)],
          [("t", Json.str "y"), ("id", Json.num 2)]] =
      Except.ok (([[("t", Json.str "x"), ("id", Json.num 1)],
          [("t", Json.str "y"), ("id", Json.num 2)]].map
        (fun r => attach_enrichment sampleArgsAllFlags nullEngine
          (joinFields sampleArgsAllFlags.fields r)
          (removeFields sampleArgsAllFlags.fields r)))) :=
  ⟨⟨by decide, by decide⟩,
    c1_no_cross_record_mixing sampleArgsAllFlags nullEngine _
      (by decide) (by decide)⟩

/-- Claim C2.  For every record stream of length `L` and every chunk size
`n ≥ 1`, `get_record_chunk` yields `⌈L / n⌉` chunks; every chunk except
possibly the last has length exactly `n`, the last has length `L mod n`
(or `n` when `L mod n = 0`), and concatenating all chunks in order
reproduces the original record stream exactly. -/
theorem c2_chunk_shape (records : List Record) (n : Nat) (hn : 1 ≤ n) :
    ∃ cs, get_record_chunk records (n : Int) = Except.ok cs ∧
      cs.length = (records.length + n - 1) / n ∧
      (∀ c ∈ cs.dropLast, c.length = n) ∧
      (∀ c, cs.getLast? = some c →
        c.length = if records.length % n = 0 then n
          else records.length % n) ∧
      cs.flatten = records := by
  refine ⟨chunksOf n records, ?_, ?_, ?_, ?_, ?_⟩
  · rw [get_record_chunk_pos records (n : Int) (by exact_mod_cast hn)]
    simp
  · exact chunksOf_length n hn records
  · exact chunksOf_dropLast n hn records
  · exact chunksOf_getLast n hn records
  · exact chunksOf_flatten n records

/-- Witness for C2: three records, chunk size two. -/
theorem c2_chunk_shape_witness :
    1 ≤ 2 ∧
    (∃ cs, get_record_chunk sampleRecords ((2 : Nat) : Int) = Except.ok cs ∧
      cs.length = (sampleRecords.length + 2 - 1) / 2 ∧
      (∀ c ∈ cs.dropLast, c.length = 2) ∧
      (∀ c, cs.getLast? = some c →
        c.length = if sampleRecords.length % 2 = 0 then 2
          else sampleRecords.length % 2) ∧
      cs.flatten = sampleRecords) :=
  ⟨by decide, c2_chunk_shape sampleRecords 2 (by decide)⟩

/-- Counterexample to claim C3.  The claim quantifies over every content-field
list in which every listed field is present in every record.  The list
`["a", "a"]` lists only the field `a`, present in the record
`{"a": "x"}`, yet `split_records` raises `KeyError` instead of producing
equal-length text and metadata streams: the first `record.pop("a")`
removes the field, so the duplicated pop fails. -/
theorem c3_duplicate_field_counterexample :
    (∀ f ∈ ["a", "a"], hasField f [("a", Json.str "x")] = true) ∧
    split_records [[("a", Json.str "x")]] ["a", "a"] =
      Except.error (PyErr.keyError "a") :=
  ⟨by decide, rfl⟩

/-- Claim C3, amended.  For every sequence of records and every
duplicate-free content-field list such that every listed field is present
in every record with a string value (per the glossary, content fields
hold the record's text), `split_records` produces a text sequence and a
metadata sequence of the same length as the input, where the text at
position `i` is the newline-join of that record's content-field values in
configured order, and the metadata at position `i` is that record with
exactly those fields removed and every other field unchanged.  Records
are dicts, so their keys are assumed pairwise distinct. -/
theorem c3_split_characterization (records : List Record)
    (cfields : List String) (hc : cfields.Nodup)
    (hrec : ∀ r ∈ records, (keysOf r).Nodup ∧ contentOK cfields r) :
    ∃ texts metas,
      split_records records cfields = Except.ok (texts, metas) ∧
      texts.length = records.length ∧ metas.length = records.length ∧
      texts = records.map (joinFields cfields) ∧
      metas = records.map (removeFields cfields) :=
  ⟨records.map (joinFields cfields), records.map (removeFields cfields),
    split_records_ok cfields hc records hrec, by simp, by simp, rfl, rfl⟩

/-- Witness for C3 at a concrete record with two content fields. -/
theorem c3_split_characterization_witness :
    ((["title", "abstract"] : List String).Nodup ∧
      (∀ r ∈ [sampleSplitRecord],
        (keysOf r).Nodup ∧ contentOK ["title", "abstract"] r)) ∧
    (∃ texts metas,
      split_records [sampleSplitRecord] ["title", "abstract"] =
        Except.ok (texts, metas) ∧
      texts.length = [sampleSplitRecord].length ∧
      metas.length = [sampleSplitRecord].length ∧
      texts = [sampleSplitRecord].map (joinFields ["title", "abstract"]) ∧
      metas = [sampleSplitRecord].map (removeFields ["title", "abstract"])) :=
  ⟨⟨by decide, by decide⟩,
    c3_split_characterization [sampleSplitRecord] ["title", "abstract"]
      (by decide) (by decide)⟩

/-- Claim C4.  For every input file the reader can open, `get_record`
yields exactly one record per line that parses as a top-level JSON
object, in line order (it equals the in-order selection of the object
lines); a line that fails to parse or parses to a non-object contributes
zero records and surfaces no error; and the reader fails only on
inability to open the file. -/
theorem c4_reader_skips_bad_lines :
    (∀ lines : List LoadResult,
      get_record_from_file (some lines) = Except.ok (get_record lines) ∧
      get_record lines = lines.filterMap objectOf ∧
      (get_record lines).length =
        lines.countP (fun l => (objectOf l).isSome)) ∧
    get_record_from_file none = Except.error PyErr.fileNotFound :=
  ⟨fun lines =>
    ⟨rfl, get_record_eq_filterMap lines, get_record_length lines⟩, rfl⟩

/-- Claim C5.  For every record and configured content-field list, if some
configured content field is absent from that record then the splitter
surfaces a missing-key failure for that record — it does not skip the
record and continue — and no pipeline stage catches it, so the exception
aborts that file's job inside `enrich_documents`.  Hypotheses: the
content-field list is duplicate-free, the chunk size is positive, and
every record is a dict whose present content fields hold strings (the
glossary's content-field contract), so the surfaced failure is precisely
a `KeyError`. -/
theorem c5_missing_field_fatal (args : Args) (eng : Engine)
    (ipath : String) (lines : List LoadResult) (hc : args.fields.Nodup)
    (hcs : 1 ≤ args.chunk_size)
    (hsa : ∀ r ∈ get_record lines,
      (keysOf r).Nodup ∧ strOrAbsent args.fields r)
    (hbad : ∃ r ∈ get_record lines, ∃ f ∈ args.fields,
      hasField f r = false) :
    (∀ r : Record, (∃ f ∈ args.fields, hasField f r = false) →
      ∃ f0 ∈ args.fields, hasField f0 r = false ∧
        splitRecord r args.fields = Except.error (PyErr.keyError f0)) ∧
    ∃ f, (enrich_documents eng ipath args (some lines)).err =
      some (PyErr.keyError f) :=
  ⟨fun r hr => splitRecord_keyError args.fields r hc hr,
    enrich_documents_keyError eng ipath args lines hc hcs hsa hbad⟩

/-- Witness for C5: a one-record file missing the content field `t`. -/
theorem c5_missing_field_fatal_witness :
    (sampleArgsAllFlags.fields.Nodup ∧ 1 ≤ sampleArgsAllFlags.chunk_size ∧
      (∀ r ∈ get_record sampleLinesMissingField,
        (keysOf r).Nodup ∧ strOrAbsent sampleArgsAllFlags.fields r) ∧
      (∃ r ∈ get_record sampleLinesMissingField,
        ∃ f ∈ sampleArgsAllFlags.fields, hasField f r = false)) ∧
    ((∀ r : Record,
      (∃ f ∈ sampleArgsAllFlags.fields, hasField f r = false) →
      ∃ f0 ∈ sampleArgsAllFlags.fields, hasField f0 r = false ∧
        splitRecord r sampleArgsAllFlags.fields =
          Except.error (PyErr.keyError f0)) ∧
    ∃ f, (enrich_documents nullEngine "in.json" sampleArgsAllFlags
        (some sampleLinesMissingField)).err =
      some (PyErr.keyError f)) :=
  ⟨⟨by decide, by decide, by decide, by decide⟩,
    c5_missing_field_fatal sampleArgsAllFlags nullEngine "in.json"
      sampleLinesMissingField (by decide) (by decide) (by decide)
      (by decide)⟩

/-- Counterexample to claim C6.  The claim states that a `sents` key is
present in a written record exactly when the corresponding configuration
flag is enabled.  The configuration read by `enrich_documents` has no
`sents` flag at all (`args.noun_chunk`, `args.svo`, `args.entity` are the
only annotation flags), and with every flag the configuration does have
enabled, the written record still carries no `sents` key. -/
theorem c6_no_sents_key_counterexample :
    (sampleArgsAllFlags.noun_chunk = true ∧ sampleArgsAllFlags.svo = true ∧
      sampleArgsAllFlags.entity = true) ∧
    (enrich_documents nullEngine "in.json" sampleArgsAllFlags
        (some sampleLines)).err = none ∧
    (enrich_documents nullEngine "in.json" sampleArgsAllFlags
        (some sampleLines)).written.length = 1 ∧
    ((enrich_documents nullEngine "in.json" sampleArgsAllFlags
        (some sampleLines)).written.all
      (fun md => hasField "sents" md = false)) = true :=
  ⟨⟨rfl, rfl, rfl⟩, rfl, rfl, by decide⟩

/-- Claim C6, amended.  For every successfully processed file,
`enrich_documents` appends one JSON object per processed record, in
order, to the file `<output_dir>/<basename(input_file)>.enrich` opened in
append mode (previous content preserved); each written object is the
record's metadata with the tokens result always attached under the
nested path `spacy_enrichment.token` regardless of flags, and with
`noun_chunks`, `svos` and `named_entities` keys present if and only if
the corresponding configuration flag is enabled; no `sents` key is ever
written (the configuration has no such flag).  Hypotheses: duplicate-free
content fields, positive chunk size, records are dicts whose content
fields hold strings, and input records do not already carry the
annotation keys. -/
theorem c6_output_shape (eng : Engine) (ipath : String) (args : Args)
    (lines : List LoadResult) (prior : List Record)
    (hc : args.fields.Nodup) (hcs : 1 ≤ args.chunk_size)
    (hrec : ∀ r ∈ get_record lines,
      (keysOf r).Nodup ∧ contentOK args.fields r)
    (hres : ∀ r ∈ get_record lines,
      "noun_chunks" ∉ keysOf r ∧ "svos" ∉ keysOf r ∧
      "named_entities" ∉ keysOf r ∧ "sents" ∉ keysOf r) :
    (enrich_documents eng ipath args (some lines)).err = none ∧
    (enrich_documents eng ipath args (some lines)).path =
      os_path_join args.output (basename ipath ++ ".enrich") ∧
    (enrich_documents eng ipath args (some lines)).written.length =
      (get_record lines).length ∧
    (enrich_documents_fs eng ipath args (some lines) (fun _ => prior)).1
        ((enrich_documents eng ipath args (some lines)).path) =
      prior ++ (enrich_documents eng ipath args (some lines)).written ∧
    ∀ md ∈ (enrich_documents eng ipath args (some lines)).written,
      (∃ t, lookupField "spacy_enrichment" md =
        some (Json.obj [("token", eng.get_tokens t)])) ∧
      ("noun_chunks" ∈ keysOf md ↔ args.noun_chunk = true) ∧
      ("svos" ∈ keysOf md ↔ args.svo = true) ∧
      ("named_entities" ∈ keysOf md ↔ args.entity = true) ∧
      "sents" ∉ keysOf md := by
  have hok := enrich_documents_ok eng ipath args lines hc hcs hrec
  rw [hok]
  refine ⟨rfl, rfl, by simp, ?_, ?_⟩
  · simp [enrich_documents_fs, hok]
  · intro md hmd
    simp only [List.mem_map] at hmd
    obtain ⟨r, hrmem, hmdeq⟩ := hmd
    subst hmdeq
    obtain ⟨hr1, hr2, hr3, hr4⟩ := hres r hrmem
    exact outputRecord_keys args eng r hr1 hr2 hr3 hr4

/-- Witness for the amended C6 at a concrete one-record file with mixed
flags. -/
theorem c6_output_shape_witness :
    (sampleArgsMixedFlags.fields.Nodup ∧
      1 ≤ sampleArgsMixedFlags.chunk_size ∧
      (∀ r ∈ get_record sampleLines,
        (keysOf r).Nodup ∧ contentOK sampleArgsMixedFlags.fields r) ∧
      (∀ r ∈ get_record sampleLines,
        "noun_chunks" ∉ keysOf r ∧ "svos" ∉ keysOf r ∧
        "named_entities" ∉ keysOf r ∧ "sents" ∉ keysOf r)) ∧
    ((enrich_documents nullEngine "data/in.json" sampleArgsMixedFlags
        (some sampleLines)).err = none ∧
    (enrich_documents nullEngine "data/in.json" sampleArgsMixedFlags
        (some sampleLines)).path =
      os_path_join sampleArgsMixedFlags.output
        (basename "data/in.json" ++ ".enrich") ∧
    (enrich_documents nullEngine "data/in.json" sampleArgsMixedFlags
        (some sampleLines)).written.length =
      (get_record sampleLines).length ∧
    (enrich_documents_fs nullEngine "data/in.json" sampleArgsMixedFlags
        (some sampleLines) (fun _ => [[("old", Json.null)]])).1
        ((enrich_documents nullEngine "data/in.json" sampleArgsMixedFlags
          (some sampleLines)).path) =
      [[("old", Json.null)]] ++
        (enrich_documents nullEngine "data/in.json" sampleArgsMixedFlags
          (some sampleLines)).written ∧
    ∀ md ∈ (enrich_documents nullEngine "data/in.json"
        sampleArgsMixedFlags (some sampleLines)).written,
      (∃ t, lookupField "spacy_enrichment" md =
        some (Json.obj [("token", nullEngine.get_tokens t)])) ∧
      ("noun_chunks" ∈ keysOf md ↔ sampleArgsMixedFlags.noun_chunk = true) ∧
      ("svos" ∈ keysOf md ↔ sampleArgsMixedFlags.svo = true) ∧
      ("named_entities" ∈ keysOf md ↔
        sampleArgsMixedFlags.entity = true) ∧
      "sents" ∉ keysOf md) :=
  ⟨⟨by decide, by decide, by decide, by decide⟩,
    c6_output_shape nullEngine "data/in.json" sampleArgsMixedFlags
      sampleLines [[("old", Json.null)]] (by decide) (by decide)
      (by decide) (by decide)⟩

/-- Claim C7, code bug.  `run_enricher` invokes
`SpacyEnrichment.enrich_documents(cfields, ipath, opath, chunk_size,
batch_size)` with five positional arguments at both call sites
(`document_enrichment.py` lines 49-58), but the method's signature
accepts exactly two once `cls` is bound (`spacy_enrichment.py` line 45:
`(cls, ipath, args)`), so every submitted job raises `TypeError` before
the per-file pipeline can run, contradicting the claim that each job
executes the whole pipeline via `enrich_documents`. -/
theorem c7_dispatch_call_arity_mismatch :
    call_with_arity enrich_documents_param_count run_enricher_arg_count =
      Except.error PyErr.typeError := rfl

/-- Counterexample to claim C8.  The claim says a detected failure of the
last-submitted job is fetched and printed rather than re-raised, the
process exiting normally.  In the code, `res.successful()` being false
means the job raised, and `res.get()` then re-raises that exception
before `print` can run: on a single-file run whose job fails with
`TypeError`, nothing is printed and the exception propagates out of
`run_enricher`. -/
theorem c8_reraise_counterexample :
    run_enricher 2 (fun _ => Except.error PyErr.typeError) ["a.json"] =
      ⟨[], some PyErr.typeError⟩ := rfl

/-- Claim C8, amended.  When the core count is greater than 1, after all
submitted jobs finish the dispatcher checks only the last-submitted
job's success flag — the other jobs' outcomes are never inspected, so the
result is unchanged under any job function agreeing on the last path —
and if that flag indicates failure, fetching the result with
`res.get()` re-raises that job's exception, so the failure propagates
out of `run_enricher` and nothing is printed. -/
theorem c8_last_job_flag_only (cores : Nat) (hcores : 1 < cores)
    (job job2 : String → Except PyErr Unit) (ipaths : List String)
    (last : String) (hlast : ipaths.getLast? = some last) :
    (run_enricher cores job ipaths).printed = [] ∧
    (∀ e, job last = Except.error e →
      run_enricher cores job ipaths = ⟨[], some e⟩) ∧
    (job last = Except.ok () →
      run_enricher cores job ipaths = ⟨[], none⟩) ∧
    (job2 last = job last →
      run_enricher cores job2 ipaths = run_enricher cores job ipaths) := by
  have hne : ¬ cores = 1 := by omega
  simp only [run_enricher, if_neg hne, hlast]
  refine ⟨?_, ?_, ?_, ?_⟩
  · cases job last with
    | ok u => rfl
    | error e => rfl
  · intro e he
    rw [he]
  · intro he
    rw [he]
  · intro heq
    rw [heq]

/-- Witness for the amended C8 on a two-file run whose last job fails. -/
theorem c8_last_job_flag_only_witness :
    (1 < 2 ∧ (["a.json", "b.json"] : List String).getLast? =
      some "b.json") ∧
    ((run_enricher 2 failingJob ["a.json", "b.json"]).printed = [] ∧
    (∀ e, failingJob "b.json" = Except.error e →
      run_enricher 2 failingJob ["a.json", "b.json"] = ⟨[], some e⟩) ∧
    (failingJob "b.json" = Except.ok () →
      run_enricher 2 failingJob ["a.json", "b.json"] = ⟨[], none⟩) ∧
    (failingJob "b.json" = failingJob "b.json" →
      run_enricher 2 failingJob ["a.json", "b.json"] =
        run_enricher 2 failingJob ["a.json", "b.json"])) :=
  ⟨⟨by decide, rfl⟩,
    c8_last_job_flag_only 2 (by decide) failingJob failingJob
      ["a.json", "b.json"] "b.json" rfl⟩

/-- Counterexample to claim C9.  The claim says every non-positive chunk size
is treated as a configuration error and rejected before any processing
begins.  Nothing validates the size: on an empty record stream the
chunking loop never runs, so `get_record_chunk` with size `0` yields no
chunks and raises no error at all — the configuration is accepted, not
rejected. -/
theorem c9_not_rejected_upfront_counterexample :
    (0 : Int) ≤ 0 ∧ get_record_chunk [] 0 = Except.ok [] :=
  ⟨by decide, rfl⟩

/-- Claim C9, amended.  A non-positive chunk size is not rejected up
front: on an empty record stream `get_record_chunk` yields no chunks and
no error; on a nonempty stream the first chunk request evaluates
`islice(iterator, size - 1)` with a negative stop — after the first
record has already been read — and fails with `ValueError`. -/
theorem c9_nonpositive_size_lazy_failure (size : Int) (h : size ≤ 0) :
    get_record_chunk [] size = Except.ok [] ∧
    ∀ records : List Record, records ≠ [] →
      get_record_chunk records size = Except.error PyErr.valueError := by
  refine ⟨rfl, ?_⟩
  intro records hne
  cases records with
  | nil => exact absurd rfl hne
  | cons r rest =>
      have hpos : size - 1 < 0 := by omega
      simp [get_record_chunk, if_pos hpos]
      omega

/-- Witness for the amended C9 at size `-3`. -/
theorem c9_nonpositive_size_lazy_failure_witness :
    (-3 : Int) ≤ 0 ∧
    (get_record_chunk [] (-3) = Except.ok [] ∧
     ∀ records : List Record, records ≠ [] →
       get_record_chunk records (-3) = Except.error PyErr.valueError) :=
  ⟨by decide, c9_nonpositive_size_lazy_failure (-3) (by decide)⟩

/-- Claim C10.  With a core count greater than 1, the post-join success
check of `run_enricher` reads the handle `res`, which is bound only
inside the submission loop; with an empty input-path list the loop never
runs, so the check raises `UnboundLocalError` instead of returning
normally as a no-op. -/
theorem c10_empty_ipaths_unbound_local (cores : Nat)
    (job : String → Except PyErr Unit) (hcores : 1 < cores) :
    run_enricher cores job [] = ⟨[], some PyErr.unboundLocalError⟩ := by
  have hne : ¬ cores = 1 := by omega
  simp [run_enricher, if_neg hne]

/-- Witness for C10 with two cores. -/
theorem c10_empty_ipaths_unbound_local_witness :
    1 < 2 ∧ run_enricher 2 (fun _ => Except.ok ()) [] =
      ⟨[], some PyErr.unboundLocalError⟩ :=
  ⟨by decide,
    c10_empty_ipaths_unbound_local 2 (fun _ => Except.ok ()) (by decide)⟩
